import Mathlib

/-!
Verification development for the tangerine renderer's task-scheduling and
instance-lifecycle core.  The definitions below are a shallow embedding of
the C++ sources: `parallel_task.h` (SequenceGenerator, ParallelAccumulator,
ParallelTaskChain, ParallelDomainTaskChain), `sdf_model.cpp` (repaint fence,
InstanceColoringGroup::StartRepaint, the drawable cache used by the SDFModel
constructor, SDFModel::RayMarch) and `sdf_rendering.cpp`
(SDFModel::UpdateColors).  Stateful code is modelled by explicit state
passing; concurrent claim loops are modelled by their sequential executions
(one caller draining the whole domain), which is the execution the testable
properties quantify over.  C++ machine integers that never overflow in the
modelled executions are modelled as `Nat`/`Int`.
-/

namespace Tangerine

/-! ### Repaint fence (sdf_model.cpp, anonymous namespace + free functions) -/

/-- State of the process-wide repaint fence: the anonymous-namespace globals
`RepaintFence` (starts at 1) and `RepaintRequested` (starts false) in
sdf_model.cpp. -/
structure RepaintState where
  repaintFence : Nat
  repaintRequested : Bool
deriving Repr, DecidableEq

/-- Initial values of the globals: `RepaintFence = 1`, `RepaintRequested = false`. -/
def initialRepaintState : RepaintState := ⟨1, false⟩

/-- Embedding of `FlagSceneRepaint()`: sets `RepaintRequested = true`. -/
def FlagSceneRepaint (s : RepaintState) : RepaintState :=
  { s with repaintRequested := true }

/-- Embedding of `PostPendingRepaintRequest()`: if a repaint was requested,
increment the fence and clear the request flag, otherwise do nothing. -/
def PostPendingRepaintRequest (s : RepaintState) : RepaintState :=
  if s.repaintRequested then
    { repaintFence := s.repaintFence + 1, repaintRequested := false }
  else
    s

/-- A call to one of the two repaint-fence entry points. -/
inductive RepaintOp where
  | flag
  | post
deriving Repr, DecidableEq

/-- Apply one repaint-fence call to the global state. -/
def applyRepaintOp (s : RepaintState) (op : RepaintOp) : RepaintState :=
  match op with
  | .flag => FlagSceneRepaint s
  | .post => PostPendingRepaintRequest s

/-- Run a sequence of repaint-fence calls in order. -/
def runRepaintOps (s : RepaintState) (ops : List RepaintOp) : RepaintState :=
  ops.foldl applyRepaintOp s

/-! ### InstanceColoringGroup::StartRepaint (sdf_model.cpp) -/

/-- Embedding of `InstanceColoringGroup::StartRepaint()`.  The group state is
its `LastRepaint` stamp; the global input is the current fence value.  The
code computes `ColorIsCurrent = (LastRepaint == CurrentFence)`, stores the
fence into `LastRepaint` when not current, and returns `ColorIsCurrent`
(`false` means "needs repaint" / stale).  Result: (returned bool, new
`LastRepaint`). -/
def InstanceColoringGroup.StartRepaint (currentFence lastRepaint : Nat) : Bool × Nat :=
  if lastRepaint = currentFence then
    (true, lastRepaint)
  else
    (false, currentFence)

/-- Run `k` consecutive `StartRepaint()` calls on one group while the global
fence stays fixed; collects the returned booleans and the final stamp. -/
def startRepaintCalls (currentFence : Nat) : Nat → Nat → List Bool × Nat
  | lastRepaint, 0 => ([], lastRepaint)
  | lastRepaint, Nat.succ k =>
    let r := InstanceColoringGroup.StartRepaint currentFence lastRepaint
    let rest := startRepaintCalls currentFence r.2 k
    (r.1 :: rest.1, rest.2)

/-! ### SequenceGenerator (parallel_task.h) -/

/-- One lane of a `SequenceGenerator`: the private `Slice` struct. -/
structure Slice where
  start : Nat
  stopBefore : Nat
deriving Repr, DecidableEq

/-- Lane-construction loop of `SequenceGenerator::Reset(Count, Partitions)`:
iterates `LaneIndex` over at most `Partitions` rounds, carrying `SliceStart`;
each round computes `SliceStopBefore = min(SliceStart + SliceCount, Count)`,
emits the lane if it is non-empty and otherwise breaks out of the loop. -/
def SequenceGenerator.resetLoop (count sliceCount : Nat) : Nat → Nat → List Slice
  | _, 0 => []
  | sliceStart, Nat.succ lanesLeft =>
    let sliceStopBefore := min (sliceStart + sliceCount) count
    if sliceStart < sliceStopBefore then
      ⟨sliceStart, sliceStopBefore⟩ ::
        SequenceGenerator.resetLoop count sliceCount sliceStopBefore lanesLeft
    else
      []

/-- Embedding of `SequenceGenerator::Reset(Count, Partitions)`: computes
`SliceCount = (Count + Partitions - 1) / Partitions` and builds the lanes. -/
def SequenceGenerator.Reset (count partitions : Nat) : List Slice :=
  let sliceCount := (count + partitions - 1) / partitions
  SequenceGenerator.resetLoop count sliceCount 0 partitions

/-- Indices handed out by one lane: the half-open range `[start, stopBefore)`. -/
def Slice.indices (sl : Slice) : List Nat :=
  List.range' sl.start (sl.stopBefore - sl.start)

/-- Full state of a `SequenceGenerator`: its lanes and the atomic `Progress`
cursor (`Reset` leaves `Progress = 0`). -/
structure SequenceGeneratorState where
  lanes : List Slice
  progress : Nat
deriving Repr, DecidableEq

/-- Embedding of `SequenceGenerator::Advance(OutStart, OutStopBefore)`: claim
`LaneIndex = Progress.fetch_add(1)`; if it addresses a lane, report that
lane's bounds and return true, otherwise report `(0, 0)` and return false.
Result: (returned bool, `OutStart`, `OutStopBefore`, new state). -/
def SequenceGenerator.Advance (s : SequenceGeneratorState) :
    Bool × Nat × Nat × SequenceGeneratorState :=
  if h : s.progress < s.lanes.length then
    (true, (s.lanes.get ⟨s.progress, h⟩).start, (s.lanes.get ⟨s.progress, h⟩).stopBefore,
      { s with progress := s.progress + 1 })
  else
    (false, 0, 0, { s with progress := s.progress + 1 })

/-- Drain a `SequenceGenerator` by calling `Advance` until it returns false,
collecting each handed-out `(OutStart, OutStopBefore)` pair in order. -/
def SequenceGenerator.drain (s : SequenceGeneratorState) : List (Nat × Nat) :=
  match h : SequenceGenerator.Advance s with
  | (true, outStart, outStopBefore, s') =>
    (outStart, outStopBefore) :: SequenceGenerator.drain s'
  | (false, _, _, _) => []
termination_by s.lanes.length - s.progress
decreasing_by
  unfold SequenceGenerator.Advance at h
  split at h
  case isTrue hlt =>
    simp only [Prod.mk.injEq] at h
    obtain ⟨-, -, -, h4⟩ := h
    subst h4
    simp only
    omega
  case isFalse hge =>
    simp only [Prod.mk.injEq] at h
    exact absurd h.1 (by simp)

/-! ### ParallelAccumulator (parallel_task.h) -/

/-- State of a `ParallelAccumulator<T>`: the per-thread `Lanes` buffers and
the atomic `Progress` cursor used for draining. -/
structure ParallelAccumulatorState (α : Type) where
  lanes : List (List α)
  progress : Nat
deriving Repr, DecidableEq

/-- Embedding of `ParallelAccumulator::Advance(OutBatch, OutBatchStart)`.
`OutBatch` is a reference parameter and receives `std::move(Lanes[LaneIndex])`
(the moved-from lane is left empty).  `OutBatchStart` is declared
`size_t OutBatchStart` — BY VALUE — so the sum of prior lane sizes that the
body computes is assigned to a local copy and is never visible to the caller;
the caller's variable keeps whatever value it had.  Result: (returned bool,
caller's batch variable after the call, caller's start variable after the
call, new accumulator state). -/
def ParallelAccumulator.Advance (s : ParallelAccumulatorState α)
    (callerBatch : List α) (callerStart : Nat) :
    Bool × List α × Nat × ParallelAccumulatorState α :=
  let laneIndex := s.progress
  let s' : ParallelAccumulatorState α := { s with progress := s.progress + 1 }
  if h : laneIndex < s.lanes.length then
    (true, s.lanes.get ⟨laneIndex, h⟩, callerStart,
      { s' with lanes := s.lanes.set laneIndex [] })
  else
    (false, callerBatch, callerStart, s')

/-- Value that the body of `ParallelAccumulator::Advance` assigns to its local
copy of `OutBatchStart` on a successful claim: the sizes of the lanes before
the claimed one at the time of the call (lanes claimed earlier have already
been moved from, hence are empty by then). -/
def ParallelAccumulator.advanceLocalBatchStart (s : ParallelAccumulatorState α) : Nat :=
  ((s.lanes.take s.progress).map List.length).sum

/-- Embedding of `ParallelAccumulator::Join`: concatenate the lanes in lane
order, preserving in-lane order. -/
def ParallelAccumulator.Join (lanes : List (List α)) : List α :=
  lanes.flatMap id

/-- Absolute starting offset of lane `laneIndex` in the merged (`Join`-order)
sequence: the sum of the original sizes of all prior lanes. -/
def originalPriorSizes (lanes : List (List α)) (laneIndex : Nat) : Nat :=
  ((lanes.take laneIndex).map List.length).sum

/-! ### ParallelDomainTaskChain claim loops (parallel_task.h)

Each `RunInner` overload is modelled by the sequence of `Loop(I&, element,
index)` calls a sequential execution performs after `Setup`: the list of
(element, index) pairs in claim order. -/

/-- Claim loop of the random-access `RunInner` (contiguous iterators): claim
`ClaimedIndex = NextIndex.fetch_add(1)`; while it is below `Domain->size()`,
call `Loop(.., (*Domain)[ClaimedIndex], ClaimedIndex)`. -/
def runInnerRandomAccessFrom (domain : List α) (nextIndex : Nat) : List (α × Int) :=
  if h : nextIndex < domain.length then
    (domain.get ⟨nextIndex, h⟩, (nextIndex : Int)) ::
      runInnerRandomAccessFrom domain (nextIndex + 1)
  else
    []
termination_by domain.length - nextIndex

/-- Random-access `RunInner` started with `NextIndex = 0`. -/
def runInnerRandomAccess (domain : List α) : List (α × Int) :=
  runInnerRandomAccessFrom domain 0

/-- Claim loop of the forward-iterator `RunInner`: under the lock, take the
cursor and advance it; call `Loop(.., *Cursor, -1)` per claimed element.  The
domain is modelled by the list of elements from `begin()` to `end()`. -/
def runInnerForwardIterator : List α → List (α × Int)
  | [] => []
  | element :: rest => (element, -1) :: runInnerForwardIterator rest

/-- Claim loop of the `SDFOctree` `RunInner`: `Setup` primes
`NextLeaf = Domain->Next`; each claim takes `Leaf = NextLeaf` and advances
`NextLeaf = Leaf->Next` under the lock, then calls `Loop(.., *Leaf, -1)`.
The linked leaf list starting at `Domain->Next` is modelled by a list. -/
def runInnerOctreeLeaves : List α → List (α × Int)
  | [] => []
  | leaf :: rest => (leaf, -1) :: runInnerOctreeLeaves rest

/-! ### ParallelTaskChain (parallel_task.h) -/

/-- A `ParallelTaskChain<I>` node: `IntermediaryData` (a unique_ptr, possibly
null) and `NextTask` (an owned successor pointer, possibly null). -/
inductive ChainNode (I : Type) where
  | mk (intermediaryData : Option I) (nextTask : Option (ChainNode I))

/-- Payload slot of a chain node. -/
def ChainNode.intermediaryData : ChainNode I → Option I
  | .mk d _ => d

/-- Successor link of a chain node. -/
def ChainNode.nextTask : ChainNode I → Option (ChainNode I)
  | .mk _ n => n

/-- Embedding of `ParallelTaskChain::BatonPass()`: if a successor exists,
`std::swap` the payloads, enqueue the successor with the scheduler, and clear
the link (`NextTask = nullptr`); otherwise do nothing.  Result: (this node
after the call, successor handed to the scheduler, if any). -/
def ChainNode.BatonPass : ChainNode I → ChainNode I × Option (ChainNode I)
  | .mk d none => (.mk d none, none)
  | .mk d (some (.mk sd sn)) => (.mk sd none, some (.mk d sn))

/-- Whether a node's own payload slot is occupied. -/
def ChainNode.holdsPayload : ChainNode I → Bool
  | .mk d _ => d.isSome

/-- The property asserted by the spec for every chain node: exactly one of
{this node holds the payload, its successor holds the payload}.  A node with
no successor can only satisfy it by holding the payload itself. -/
def ChainNode.exactlyOneHolder : ChainNode I → Bool
  | .mk d none => d.isSome
  | .mk d (some s) => xor d.isSome s.holdsPayload

/-- Number of payloads held by a node and its immediate successor before a
`BatonPass` call. -/
def ChainNode.pairPayloadCount : ChainNode I → Nat
  | .mk d none => (if d.isSome then 1 else 0)
  | .mk d (some s) => (if d.isSome then 1 else 0) + (if s.holdsPayload then 1 else 0)

/-- Number of payloads held by the two objects a `BatonPass` call leaves
behind: the node itself and the successor handed to the scheduler. -/
def ChainNode.postPayloadCount (r : ChainNode I × Option (ChainNode I)) : Nat :=
  (if r.1.holdsPayload then 1 else 0) +
    (match r.2 with
     | some s => if s.holdsPayload then 1 else 0
     | none => 0)

/-! ### Drawable cache (sdf_model.cpp)

`DrawableCache` is a vector of `(size_t key, DrawableWeakRef)` pairs guarded
by a mutex.  Drawables are modelled by numeric ids; a weak reference is live
exactly when its id is in the `live` list (some instance still holds a strong
reference).  `populateCount` counts `Sodapop::Populate` calls (build starts);
`nextId` is a fresh-id source standing for new-object addresses. -/
structure CacheState where
  entries : List (Nat × Nat)
  live : List Nat
  nextId : Nat
  populateCount : Nat
deriving Repr, DecidableEq

/-- Embedding of the cache scan loop in `SDFModel::SDFModel`: walk the
entries in order; on a key match, try to lock the weak reference; stop at the
first matching entry that is still live, otherwise keep scanning (expired
matches are skipped). -/
def cacheLookup (key : Nat) (live : List Nat) : List (Nat × Nat) → Option Nat
  | [] => none
  | entry :: rest =>
    if entry.1 = key ∧ entry.2 ∈ live then some entry.2
    else cacheLookup key live rest

/-- Embedding of the cache interaction of `SDFModel::SDFModel` (all under
`DrawableCacheCS`): scan for a live entry with the evaluator-address `key`;
if found, bind this instance to that Drawable (no build); otherwise construct
a new Drawable (fresh id, kept live by the instance's shared reference),
append a weak cache entry for it, and call `Sodapop::Populate` to schedule
the build pipeline.  Result: (Drawable bound to the instance, new state). -/
def SDFModel.construct (s : CacheState) (key : Nat) : Nat × CacheState :=
  match cacheLookup key s.live s.entries with
  | some painter => (painter, s)
  | none =>
    let painter := s.nextId
    (painter,
      { entries := s.entries ++ [(key, painter)]
        live := s.live ++ [painter]
        nextId := s.nextId + 1
        populateCount := s.populateCount + 1 })

/-- Embedding of `PruneStaleDrawableFromCache()`: erase the first expired
entry, if any, and stop (at most one entry is removed per invocation). -/
def PruneStaleDrawableFromCache (live : List Nat) : List (Nat × Nat) → List (Nat × Nat)
  | [] => []
  | entry :: rest =>
    if entry.2 ∈ live then entry :: PruneStaleDrawableFromCache live rest
    else rest

/-- Freshness of the id source: every id already present in the cache state
is below `nextId`. -/
def CacheState.Fresh (s : CacheState) : Prop :=
  (∀ e ∈ s.entries, e.2 < s.nextId) ∧ (∀ i ∈ s.live, i < s.nextId)

/-- The cache invariant from the spec: at most one live Drawable per identity
at any time — no two distinct entries share a key while both are live. -/
def CacheState.AtMostOneLivePerKey (s : CacheState) : Prop :=
  s.entries.Pairwise (fun a b => a.1 = b.1 → ¬(a.2 ∈ s.live ∧ b.2 ∈ s.live))

/-- Well-formedness of a cache state. -/
def CacheState.WF (s : CacheState) : Prop :=
  s.Fresh ∧ s.AtMostOneLivePerKey

/-! ### SDFModel::UpdateColors (sdf_rendering.cpp) -/

/-- An `InstanceColoringGroup` as seen by `UpdateColors`: the vertex-index
list of its `MaterialVertexGroup`, the chunk bounds `IndexStart`/`IndexRange`
within that list, and the pending `Colors` buffer guarded by `ColorCS`. -/
structure ColoringGroup (C : Type) where
  vertices : List Nat
  indexStart : Nat
  indexRange : Nat
  pendingColors : List C

/-- Inner write loop of `UpdateColors` for one group: for `RelativeIndex` in
`[0, IndexRange)`, write `NewColors[RelativeIndex]` into the instance color
array at `Vertices[IndexStart + RelativeIndex]`.  Out-of-range reads (which
would be undefined behaviour in the C++) are totalised with defaults; the
theorems below carry the bounds under which no default is ever taken. -/
def writeGroupColorsLoop [Inhabited C] (vertices : List Nat) (indexStart : Nat)
    (newColors : List C) (indexRange : Nat) (relativeIndex : Nat) (colors : List C) :
    List C :=
  if relativeIndex < indexRange then
    writeGroupColorsLoop vertices indexStart newColors indexRange (relativeIndex + 1)
      (colors.set (vertices.getD (indexStart + relativeIndex) 0)
        (newColors.getD relativeIndex default))
  else
    colors
termination_by indexRange - relativeIndex

/-- Embedding of `SDFModel::UpdateColors`: for each coloring group in order,
swap the pending color buffer out (leaving it empty) and, if it was
non-empty, run the write loop over the group's chunk.  Result: (instance
color array after the call, groups after the call). -/
def SDFModel.UpdateColors [Inhabited C] :
    List C → List (ColoringGroup C) → List C × List (ColoringGroup C)
  | colors, [] => (colors, [])
  | colors, g :: rest =>
    let newColors := g.pendingColors
    let colors' :=
      if 0 < newColors.length then
        writeGroupColorsLoop g.vertices g.indexStart newColors g.indexRange 0 colors
      else
        colors
    let r := SDFModel.UpdateColors colors' rest
    (r.1, { g with pendingColors := [] } :: r.2)

/-- Color-array slots addressed by one group's write loop, in write order. -/
def groupAddresses (g : ColoringGroup C) : List Nat :=
  (List.range g.indexRange).map (fun i => g.vertices.getD (g.indexStart + i) 0)

/-- Color-array slots addressed by all groups with a non-empty pending
buffer, in processing order. -/
def activeAddresses (groups : List (ColoringGroup C)) : List Nat :=
  (groups.filter (fun g => !g.pendingColors.isEmpty)).flatMap groupAddresses

/-! ### SDFModel::RayMarch (sdf_model.cpp) -/

/-- Evaluator capability consumed by `SDFModel::RayMarch`: the opaque
`SDFNode::RayMarch(origin, dir, maxSteps)` entry point, over abstract vector
and hit types. -/
structure SDFEvaluator (V H : Type) where
  RayMarchEval : V → V → Nat → H

/-- The parts of an `SDFModel` that `RayMarch` reads: its evaluator and its
`LocalToWorld` transform, the latter abstracted by the two query-space maps
the body applies (`LocalToWorld.ApplyInv` and rotation by
`glm::inverse(LocalToWorld.Rotation)`). -/
structure SDFModelRM (V H : Type) where
  evaluator : SDFEvaluator V H
  applyInvLocalToWorld : V → V
  rotateByInverseRotation : V → V

/-- Embedding of `SDFModel::RayMarch(RayStart, RayDir, MaxIterations,
Epsilon)`: transform the ray into local space and delegate to the
evaluator's `RayMarch` with the hardcoded step limit 1000.  The
`MaxIterations` and `Epsilon` parameters (declared with defaults 1000 and
0.001) are never read by the body. -/
def SDFModelRM.RayMarch (m : SDFModelRM V H) (rayStart rayDir : V)
    (maxIterations : Int) (epsilon : ℚ) : H :=
  m.evaluator.RayMarchEval (m.applyInvLocalToWorld rayStart)
    (m.rotateByInverseRotation rayDir) 1000

/-! ### Helper lemmas -/

/-- Running a concatenated call sequence runs the two halves in order. -/
theorem runRepaintOps_append (s : RepaintState) (xs ys : List RepaintOp) :
    runRepaintOps s (xs ++ ys) = runRepaintOps (runRepaintOps s xs) ys :=
  List.foldl_append ..

/-- Any positive number of consecutive `FlagSceneRepaint` calls just sets the
request flag. -/
theorem runRepaintOps_replicate_flag (n : Nat) (hn : 1 ≤ n) (s : RepaintState) :
    runRepaintOps s (List.replicate n .flag) = { s with repaintRequested := true } := by
  induction n generalizing s with
  | zero => omega
  | succ m ih =>
    rw [List.replicate_succ]
    show runRepaintOps (FlagSceneRepaint s) (List.replicate m .flag) = _
    rcases Nat.eq_zero_or_pos m with hm | hm
    · subst hm
      rfl
    · rw [ih hm]
      rfl

/-- One repaint-fence call never decreases the fence. -/
theorem applyRepaintOp_fence_le (s : RepaintState) (op : RepaintOp) :
    s.repaintFence ≤ (applyRepaintOp s op).repaintFence := by
  cases op with
  | flag => exact Nat.le_refl _
  | post =>
    show s.repaintFence ≤ (PostPendingRepaintRequest s).repaintFence
    unfold PostPendingRepaintRequest
    split <;> simp

/-- The repaint fence is monotone along any call sequence. -/
theorem runRepaintOps_fence_le (ops : List RepaintOp) (s : RepaintState) :
    s.repaintFence ≤ (runRepaintOps s ops).repaintFence := by
  induction ops generalizing s with
  | nil => exact Nat.le_refl _
  | cons op rest ih =>
    exact Nat.le_trans (applyRepaintOp_fence_le s op) (ih (applyRepaintOp s op))

/-- Once the group's stamp equals the fence, every further call at the same
fence reports "already current" and leaves the stamp alone. -/
theorem startRepaintCalls_current (currentFence : Nat) (k : Nat) :
    startRepaintCalls currentFence currentFence k = (List.replicate k true, currentFence) := by
  induction k with
  | zero => rfl
  | succ m ih =>
    have hs : InstanceColoringGroup.StartRepaint currentFence currentFence =
        (true, currentFence) := by
      unfold InstanceColoringGroup.StartRepaint
      rw [if_pos rfl]
    simp only [startRepaintCalls, hs, ih, List.replicate_succ]

/-- Elements visited by the random-access claim loop, from a given cursor:
the remaining suffix of the domain. -/
theorem runInnerRandomAccessFrom_map_fst (domain : List α) (k : Nat) :
    (runInnerRandomAccessFrom domain k).map Prod.fst = domain.drop k := by
  have main : ∀ fuel k, domain.length - k ≤ fuel →
      (runInnerRandomAccessFrom domain k).map Prod.fst = domain.drop k := by
    intro fuel
    induction fuel with
    | zero =>
      intro k hk
      rw [runInnerRandomAccessFrom]
      rw [dif_neg (by omega)]
      rw [List.drop_eq_nil_of_le (by omega)]
      rfl
    | succ m ih =>
      intro k hk
      rw [runInnerRandomAccessFrom]
      by_cases h : k < domain.length
      · rw [dif_pos h]
        rw [List.map_cons, ih (k + 1) (by omega)]
        rw [List.drop_eq_get_cons h]
      · rw [dif_neg h]
        rw [List.drop_eq_nil_of_le (by omega)]
        rfl
  exact main (domain.length - k) k (Nat.le_refl _)

/-- Indices claimed by the random-access claim loop, from a given cursor:
the consecutive integers from the cursor to the end of the domain. -/
theorem runInnerRandomAccessFrom_map_snd (domain : List α) (k : Nat) :
    (runInnerRandomAccessFrom domain k).map Prod.snd =
      (List.range' k (domain.length - k)).map Int.ofNat := by
  have main : ∀ fuel k, domain.length - k ≤ fuel →
      (runInnerRandomAccessFrom domain k).map Prod.snd =
        (List.range' k (domain.length - k)).map Int.ofNat := by
    intro fuel
    induction fuel with
    | zero =>
      intro k hk
      rw [runInnerRandomAccessFrom]
      rw [dif_neg (by omega)]
      have hz : domain.length - k = 0 := by omega
      rw [hz]
      rfl
    | succ m ih =>
      intro k hk
      rw [runInnerRandomAccessFrom]
      by_cases h : k < domain.length
      · rw [dif_pos h]
        rw [List.map_cons, ih (k + 1) (by omega)]
        have hr : domain.length - k = (domain.length - (k + 1)) + 1 := by omega
        rw [hr, List.range'_succ, List.map_cons]
        simp
      · rw [dif_neg h]
        have hz : domain.length - k = 0 := by omega
        rw [hz]
        rfl
  exact main (domain.length - k) k (Nat.le_refl _)

/-- The forward-iterator claim loop pairs each element with index -1. -/
theorem runInnerForwardIterator_eq (domain : List α) :
    runInnerForwardIterator domain = domain.map (fun e => (e, (-1 : Int))) := by
  induction domain with
  | nil => rfl
  | cons x rest ih => rw [runInnerForwardIterator, ih, List.map_cons]

/-- The octree-leaf claim loop pairs each leaf with index -1. -/
theorem runInnerOctreeLeaves_eq (leaves : List α) :
    runInnerOctreeLeaves leaves = leaves.map (fun l => (l, (-1 : Int))) := by
  induction leaves with
  | nil => rfl
  | cons x rest ih => rw [runInnerOctreeLeaves, ih, List.map_cons]

/-- The lane loop emits at most as many lanes as it has rounds. -/
theorem resetLoop_length_le (count sliceCount : Nat) :
    ∀ p sliceStart,
      (SequenceGenerator.resetLoop count sliceCount sliceStart p).length ≤ p := by
  intro p
  induction p with
  | zero => intro sliceStart; exact Nat.le_refl _
  | succ m ih =>
    intro sliceStart
    rw [SequenceGenerator.resetLoop]
    split
    · simpa using ih _
    · simp

/-- Every lane the loop emits is non-empty. -/
theorem resetLoop_lanes_nonempty (count sliceCount : Nat) :
    ∀ p sliceStart, ∀ sl ∈ SequenceGenerator.resetLoop count sliceCount sliceStart p,
      sl.start < sl.stopBefore := by
  intro p
  induction p with
  | zero => intro sliceStart sl h; simp [SequenceGenerator.resetLoop] at h
  | succ m ih =>
    intro sliceStart sl h
    rw [SequenceGenerator.resetLoop] at h
    split at h
    case isTrue hlt =>
      rcases List.mem_cons.mp h with rfl | hmem
      · exact hlt
      · exact ih _ sl hmem
    case isFalse => simp at h

/-- The lanes the loop emits hand out exactly the indices from the starting
cursor up to the count, in order, provided enough rounds remain to reach the
count. -/
theorem resetLoop_flatten (count sliceCount : Nat) :
    ∀ p sliceStart, sliceStart ≤ count → count ≤ sliceStart + p * sliceCount →
      (SequenceGenerator.resetLoop count sliceCount sliceStart p).flatMap Slice.indices =
        List.range' sliceStart (count - sliceStart) := by
  intro p
  induction p with
  | zero =>
    intro sliceStart h1 h2
    have hz : count - sliceStart = 0 := by omega
    rw [SequenceGenerator.resetLoop, hz]
    rfl
  | succ m ih =>
    intro sliceStart h1 h2
    rw [SequenceGenerator.resetLoop]
    have hmin1 : min (sliceStart + sliceCount) count ≤ count := Nat.min_le_right _ _
    have hmin2 : min (sliceStart + sliceCount) count ≤ sliceStart + sliceCount :=
      Nat.min_le_left _ _
    have hmin3 : min (sliceStart + sliceCount) count = sliceStart + sliceCount ∨
        min (sliceStart + sliceCount) count = count := by omega
    have hmul : (m + 1) * sliceCount = m * sliceCount + sliceCount := Nat.succ_mul m sliceCount
    split
    case isTrue hlt =>
      rw [List.flatMap_cons]
      rw [ih (min (sliceStart + sliceCount) count) hmin1 (by omega)]
      show List.range' sliceStart (min (sliceStart + sliceCount) count - sliceStart) ++ _ = _
      have happ := List.range'_append sliceStart
        (min (sliceStart + sliceCount) count - sliceStart)
        (count - min (sliceStart + sliceCount) count) 1
      have he1 : sliceStart + 1 * (min (sliceStart + sliceCount) count - sliceStart) =
          min (sliceStart + sliceCount) count := by omega
      have he2 : count - min (sliceStart + sliceCount) count +
          (min (sliceStart + sliceCount) count - sliceStart) = count - sliceStart := by omega
      rw [he1, he2] at happ
      exact happ
    case isFalse hge =>
      have hz : count - sliceStart = 0 := by
        rcases hmin3 with he | he
        · have hsc : sliceCount = 0 := by omega
          have hms : m * sliceCount = 0 := by rw [hsc, Nat.mul_zero]
          omega
        · omega
      rw [hz]
      rfl

/-- Ceiling division covers the dividend: `Partitions` slices of size
`(Count + Partitions - 1) / Partitions` reach `Count`. -/
theorem ceil_div_covers (count partitions : Nat) (hp : 1 ≤ partitions) :
    count ≤ partitions * ((count + partitions - 1) / partitions) := by
  have hdm := Nat.div_add_mod (count + partitions - 1) partitions
  have hlt : (count + partitions - 1) % partitions < partitions := Nat.mod_lt _ (by omega)
  omega

/-- Successful `Advance` on a state whose cursor addresses a lane. -/
theorem advance_pos (s : SequenceGeneratorState) (h : s.progress < s.lanes.length) :
    SequenceGenerator.Advance s =
      (true, (s.lanes.get ⟨s.progress, h⟩).start, (s.lanes.get ⟨s.progress, h⟩).stopBefore,
        { s with progress := s.progress + 1 }) := by
  unfold SequenceGenerator.Advance
  rw [dif_pos h]

/-- Failed `Advance` on a state whose cursor is past the lanes. -/
theorem advance_neg (s : SequenceGeneratorState) (h : ¬s.progress < s.lanes.length) :
    SequenceGenerator.Advance s = (false, 0, 0, { s with progress := s.progress + 1 }) := by
  unfold SequenceGenerator.Advance
  rw [dif_neg h]

/-- Draining a `SequenceGenerator` from cursor position k hands out the lanes
from position k onward, once each, in order. -/
theorem drain_eq (lanes : List Slice) (k : Nat) :
    SequenceGenerator.drain ⟨lanes, k⟩ =
      (lanes.drop k).map (fun sl => (sl.start, sl.stopBefore)) := by
  have main : ∀ fuel k, lanes.length - k ≤ fuel →
      SequenceGenerator.drain ⟨lanes, k⟩ =
        (lanes.drop k).map (fun sl => (sl.start, sl.stopBefore)) := by
    intro fuel
    induction fuel with
    | zero =>
      intro k hk
      unfold SequenceGenerator.drain
      split
      case _ outStart outStopBefore s' heq =>
        rw [advance_neg ⟨lanes, k⟩ (by show ¬k < lanes.length; omega)] at heq
        exact absurd (congrArg Prod.fst heq) (by simp)
      case _ a b s' heq =>
        rw [List.drop_eq_nil_of_le (by omega)]
        rfl
    | succ m ih =>
      intro k hk
      unfold SequenceGenerator.drain
      split
      case _ outStart outStopBefore s' heq =>
        by_cases h : k < lanes.length
        · rw [advance_pos ⟨lanes, k⟩ h] at heq
          simp only [Prod.mk.injEq, true_and] at heq
          obtain ⟨h2, h3, h4⟩ := heq
          subst h4
          rw [← h2, ← h3, ih (k + 1) (by omega), List.drop_eq_get_cons h, List.map_cons]
        · rw [advance_neg ⟨lanes, k⟩ (by simpa using h)] at heq
          exact absurd (congrArg Prod.fst heq) (by simp)
      case _ a b s' heq =>
        by_cases h : k < lanes.length
        · rw [advance_pos ⟨lanes, k⟩ h] at heq
          exact absurd (congrArg Prod.fst heq) (by simp)
        · rw [List.drop_eq_nil_of_le (by omega)]
          rfl
  exact main (lanes.length - k) k (Nat.le_refl _)

/-- The scan returns nothing exactly when every entry with the requested key
is expired. -/
theorem cacheLookup_none (key : Nat) (live : List Nat) (entries : List (Nat × Nat)) :
    cacheLookup key live entries = none ↔ ∀ e ∈ entries, e.1 = key → e.2 ∉ live := by
  induction entries with
  | nil => simp [cacheLookup]
  | cons entry rest ih =>
    rw [cacheLookup]
    by_cases hc : entry.1 = key ∧ entry.2 ∈ live
    · rw [if_pos hc]
      constructor
      · intro h
        simp at h
      · intro h
        exact absurd hc.2 (h entry (List.mem_cons_self _ _) hc.1)
    · rw [if_neg hc, ih]
      constructor
      · intro h e he hk
        rcases List.mem_cons.mp he with rfl | hmem
        · intro hl
          exact hc ⟨hk, hl⟩
        · exact h e hmem hk
      · intro h e he hk
        exact h e (List.mem_cons_of_mem _ he) hk

/-- A successful scan returns a live entry with the requested key. -/
theorem cacheLookup_some_mem (key : Nat) (live : List Nat) (entries : List (Nat × Nat))
    (p : Nat) (h : cacheLookup key live entries = some p) :
    (key, p) ∈ entries ∧ p ∈ live := by
  induction entries with
  | nil => simp [cacheLookup] at h
  | cons entry rest ih =>
    rw [cacheLookup] at h
    by_cases hc : entry.1 = key ∧ entry.2 ∈ live
    · rw [if_pos hc] at h
      injection h with h
      subst h
      refine ⟨?_, hc.2⟩
      have he : (key, entry.2) = entry := by rw [← hc.1]
      rw [he]
      exact List.mem_cons_self _ _
    · rw [if_neg hc] at h
      have := ih h
      exact ⟨List.mem_cons_of_mem _ this.1, this.2⟩

/-- After a fresh entry is appended and its Drawable made live, the scan
finds it: the older entries with the same key are still expired (the fresh id
belongs to none of them). -/
theorem cacheLookup_append_fresh (key : Nat) (live : List Nat) (newId : Nat) :
    ∀ entries : List (Nat × Nat),
      (∀ e ∈ entries, e.1 = key → e.2 ∉ live) →
      (∀ e ∈ entries, e.2 ≠ newId) →
      cacheLookup key (live ++ [newId]) (entries ++ [(key, newId)]) = some newId := by
  intro entries
  induction entries with
  | nil =>
    intro _ _
    rw [List.nil_append, cacheLookup]
    rw [if_pos ⟨rfl, by simp⟩]
  | cons entry rest ih =>
    intro hdead hfresh
    rw [List.cons_append, cacheLookup]
    have hne : ¬(entry.1 = key ∧ entry.2 ∈ live ++ [newId]) := by
      rintro ⟨hk, hl⟩
      rcases List.mem_append.mp hl with hl | hl
      · exact hdead entry (List.mem_cons_self _ _) hk hl
      · exact hfresh entry (List.mem_cons_self _ _) (by simpa using hl)
    rw [if_neg hne]
    exact ih (fun e he hk => hdead e (List.mem_cons_of_mem _ he) hk)
      (fun e he => hfresh e (List.mem_cons_of_mem _ he))

/-- A reusing construction leaves the cache state unchanged and binds the
instance to the scanned Drawable. -/
theorem construct_reuse (s : CacheState) (key p : Nat)
    (h : cacheLookup key s.live s.entries = some p) :
    SDFModel.construct s key = (p, s) := by
  unfold SDFModel.construct
  rw [h]

/-- A building construction appends a fresh live entry, bumps the id source
and starts exactly one build. -/
theorem construct_build (s : CacheState) (key : Nat)
    (h : cacheLookup key s.live s.entries = none) :
    SDFModel.construct s key =
      (s.nextId,
        { entries := s.entries ++ [(key, s.nextId)]
          live := s.live ++ [s.nextId]
          nextId := s.nextId + 1
          populateCount := s.populateCount + 1 }) := by
  unfold SDFModel.construct
  rw [h]

/-- Construction preserves the cache well-formedness invariant, in particular
"at most one live Drawable per identity". -/
theorem construct_WF (s : CacheState) (key : Nat) (hwf : s.WF) :
    (SDFModel.construct s key).2.WF := by
  match h : cacheLookup key s.live s.entries with
  | some p =>
    rw [construct_reuse s key p h]
    exact hwf
  | none =>
    rw [construct_build s key h]
    dsimp only
    obtain ⟨⟨hfe, hfl⟩, hpw⟩ := hwf
    refine ⟨⟨?_, ?_⟩, ?_⟩
    · intro e he
      rcases List.mem_append.mp he with hm | hm
      · exact Nat.lt_succ_of_lt (hfe e hm)
      · simp only [List.mem_singleton] at hm
        subst hm
        exact Nat.lt_succ_self _
    · intro i hi
      rcases List.mem_append.mp hi with hm | hm
      · exact Nat.lt_succ_of_lt (hfl i hm)
      · simp only [List.mem_singleton] at hm
        subst hm
        exact Nat.lt_succ_self _
    · show List.Pairwise _ (s.entries ++ [(key, s.nextId)])
      rw [List.pairwise_append]
      have hdead := (cacheLookup_none key s.live s.entries).mp h
      refine ⟨?_, List.pairwise_singleton _ _, ?_⟩
      · refine hpw.imp_of_mem ?_
        intro a b ha hb hr hk
        rintro ⟨hla, hlb⟩
        have hna : a.2 ≠ s.nextId := Nat.ne_of_lt (hfe a ha)
        have hnb : b.2 ≠ s.nextId := Nat.ne_of_lt (hfe b hb)
        have hla' : a.2 ∈ s.live := by
          rcases List.mem_append.mp hla with hm | hm
          · exact hm
          · exact absurd (by simpa using hm) hna
        have hlb' : b.2 ∈ s.live := by
          rcases List.mem_append.mp hlb with hm | hm
          · exact hm
          · exact absurd (by simpa using hm) hnb
        exact hr hk ⟨hla', hlb'⟩
      · intro a ha b hb
        simp only [List.mem_singleton] at hb
        subst hb
        intro hk
        rintro ⟨hla, -⟩
        have hna : a.2 ≠ s.nextId := Nat.ne_of_lt (hfe a ha)
        have hla' : a.2 ∈ s.live := by
          rcases List.mem_append.mp hla with hm | hm
          · exact hm
          · exact absurd (by simpa using hm) hna
        exact hdead a ha hk hla'

/-- The write loop never changes the length of the color array. -/
theorem writeGroupColorsLoop_length (C : Type) [Inhabited C] (vertices : List Nat)
    (indexStart : Nat) (newColors : List C) (indexRange : Nat) (k : Nat) (colors : List C) :
    (writeGroupColorsLoop vertices indexStart newColors indexRange k colors).length =
      colors.length := by
  have main : ∀ fuel k (colors : List C), indexRange - k ≤ fuel →
      (writeGroupColorsLoop vertices indexStart newColors indexRange k colors).length =
        colors.length := by
    intro fuel
    induction fuel with
    | zero =>
      intro k colors hk
      rw [writeGroupColorsLoop, if_neg (by omega)]
    | succ m ih =>
      intro k colors hk
      by_cases h : k < indexRange
      · rw [writeGroupColorsLoop, if_pos h, ih (k + 1) _ (by omega), List.length_set]
      · rw [writeGroupColorsLoop, if_neg h]
  exact main (indexRange - k) k colors (Nat.le_refl _)

/-- The write loop leaves every slot it does not address untouched. -/
theorem writeGroupColorsLoop_frame (C : Type) [Inhabited C] (vertices : List Nat)
    (indexStart : Nat) (newColors : List C) (indexRange : Nat) (j : Nat) (k : Nat)
    (colors : List C)
    (hj : ∀ i, k ≤ i → i < indexRange → vertices.getD (indexStart + i) 0 ≠ j) :
    (writeGroupColorsLoop vertices indexStart newColors indexRange k colors).get? j =
      colors.get? j := by
  have main : ∀ fuel k (colors : List C), indexRange - k ≤ fuel →
      (∀ i, k ≤ i → i < indexRange → vertices.getD (indexStart + i) 0 ≠ j) →
      (writeGroupColorsLoop vertices indexStart newColors indexRange k colors).get? j =
        colors.get? j := by
    intro fuel
    induction fuel with
    | zero =>
      intro k colors hk _
      rw [writeGroupColorsLoop, if_neg (by omega)]
    | succ m ih =>
      intro k colors hk hj
      by_cases h : k < indexRange
      · rw [writeGroupColorsLoop, if_pos h,
          ih (k + 1) _ (by omega) (fun i h1 h2 => hj i (by omega) h2)]
        exact List.get?_set_ne _ _ (hj k (Nat.le_refl _) h)
      · rw [writeGroupColorsLoop, if_neg h]
  exact main (indexRange - k) k colors (Nat.le_refl _) hj

/-- The write loop stores the i-th pending color at the slot addressed by the
i-th vertex index, provided the later writes of the same loop do not hit that
slot again. -/
theorem writeGroupColorsLoop_write (C : Type) [Inhabited C] (vertices : List Nat)
    (indexStart : Nat) (newColors : List C) (indexRange : Nat) (k : Nat) (colors : List C)
    (i : Nat) (hki : k ≤ i) (hir : i < indexRange)
    (hinj : ∀ i', i < i' → i' < indexRange →
      vertices.getD (indexStart + i') 0 ≠ vertices.getD (indexStart + i) 0)
    (hb : vertices.getD (indexStart + i) 0 < colors.length) :
    (writeGroupColorsLoop vertices indexStart newColors indexRange k colors).get?
        (vertices.getD (indexStart + i) 0) =
      some (newColors.getD i default) := by
  have main : ∀ fuel k (colors : List C), indexRange - k ≤ fuel → k ≤ i →
      vertices.getD (indexStart + i) 0 < colors.length →
      (writeGroupColorsLoop vertices indexStart newColors indexRange k colors).get?
          (vertices.getD (indexStart + i) 0) =
        some (newColors.getD i default) := by
    intro fuel
    induction fuel with
    | zero =>
      intro k colors hk hki _
      omega
    | succ m ih =>
      intro k colors hk hki hb
      have h : k < indexRange := by omega
      rw [writeGroupColorsLoop, if_pos h]
      by_cases hik : i = k
      · subst hik
        rw [writeGroupColorsLoop_frame C vertices indexStart newColors indexRange _ (i + 1) _
          (fun i' h1 h2 => hinj i' (by omega) h2)]
        exact List.get?_set_eq_of_lt _ hb
      · rw [ih (k + 1) _ (by omega) (by omega) (by rw [List.length_set]; exact hb)]
  exact main (indexRange - k) k colors (Nat.le_refl _) hki hb

/-- Unfolding of the active-address list at a cons cell. -/
theorem activeAddresses_cons (C : Type) (g : ColoringGroup C)
    (rest : List (ColoringGroup C)) :
    activeAddresses (g :: rest) =
      (if 0 < g.pendingColors.length then groupAddresses g else []) ++
        activeAddresses rest := by
  cases hp : g.pendingColors with
  | nil => simp [activeAddresses, List.filter_cons, hp]
  | cons c cs => simp [activeAddresses, List.filter_cons, hp]

/-- Every chunk slot is among the group's addresses. -/
theorem mem_groupAddresses (C : Type) (g : ColoringGroup C) (i : Nat)
    (h : i < g.indexRange) :
    g.vertices.getD (g.indexStart + i) 0 ∈ groupAddresses g :=
  List.mem_map_of_mem _ (List.mem_range.mpr h)

/-- Distinct chunk positions of a duplicate-free group address different
slots. -/
theorem groupAddresses_inj (C : Type) (g : ColoringGroup C)
    (h : (groupAddresses g).Nodup) (x y : Nat) (hx : x < g.indexRange)
    (hy : y < g.indexRange)
    (hfe : g.vertices.getD (g.indexStart + x) 0 = g.vertices.getD (g.indexStart + y) 0) :
    x = y := by
  have := (List.nodup_map_iff_inj_on (List.nodup_range g.indexRange)).mp h
  exact this x (List.mem_range.mpr hx) y (List.mem_range.mpr hy) hfe

/-- One-step unfolding of `UpdateColors` at a cons cell. -/
theorem updateColors_cons (C : Type) [Inhabited C] (colors : List C) (g : ColoringGroup C)
    (rest : List (ColoringGroup C)) :
    SDFModel.UpdateColors colors (g :: rest) =
      ((SDFModel.UpdateColors
          (if 0 < g.pendingColors.length then
            writeGroupColorsLoop g.vertices g.indexStart g.pendingColors g.indexRange 0 colors
          else colors) rest).1,
        { g with pendingColors := ([] : List C) } ::
          (SDFModel.UpdateColors
            (if 0 < g.pendingColors.length then
              writeGroupColorsLoop g.vertices g.indexStart g.pendingColors g.indexRange 0 colors
            else colors) rest).2) := rfl

/-! ### Claim theorems -/

/-- C5: for every n ≥ 1, n `FlagSceneRepaint()` calls followed by exactly one
`PostPendingRepaintRequest()` increment the repaint fence by exactly 1; a
post with no flag since the previous post leaves the state (hence the fence)
unchanged; and the fence never decreases along any call sequence. -/
theorem repaint_fence_coalesces (s : RepaintState) (n : Nat) (hn : 1 ≤ n)
    (ops : List RepaintOp) :
    (runRepaintOps s (List.replicate n .flag ++ [.post])).repaintFence =
      s.repaintFence + 1
    ∧ (s.repaintRequested = false → PostPendingRepaintRequest s = s)
    ∧ PostPendingRepaintRequest (PostPendingRepaintRequest s) = PostPendingRepaintRequest s
    ∧ s.repaintFence ≤ (runRepaintOps s ops).repaintFence := by
  refine ⟨?_, ?_, ?_, runRepaintOps_fence_le ops s⟩
  · rw [runRepaintOps_append, runRepaintOps_replicate_flag n hn s]
    rfl
  · intro h
    unfold PostPendingRepaintRequest
    rw [h]
    rfl
  · unfold PostPendingRepaintRequest
    split <;> simp

/-- C5 witness: three flags and one post advance the fence of the initial
state from 1 to 2; a further post is a no-op; the fence is monotone. -/
theorem repaint_fence_coalesces_witness :
    1 ≤ 3 ∧
    ((runRepaintOps initialRepaintState (List.replicate 3 .flag ++ [.post])).repaintFence =
      initialRepaintState.repaintFence + 1
    ∧ (initialRepaintState.repaintRequested = false →
        PostPendingRepaintRequest initialRepaintState = initialRepaintState)
    ∧ PostPendingRepaintRequest (PostPendingRepaintRequest initialRepaintState) =
        PostPendingRepaintRequest initialRepaintState
    ∧ initialRepaintState.repaintFence ≤
        (runRepaintOps initialRepaintState [.flag, .post, .post]).repaintFence) :=
  ⟨by decide, repaint_fence_coalesces initialRepaintState 3 (by decide) [.flag, .post, .post]⟩

/-- C6: at a fixed fence value, a group whose stamp is stale reports "needs
repaint" on the first `StartRepaint()` call and updates its stamp to the
fence; every further call at the same fence reports "already current"; over
any k ≥ 1 consecutive calls the stale report happens exactly once. -/
theorem startRepaint_stale_exactly_once (currentFence lastRepaint k : Nat)
    (hstale : lastRepaint ≠ currentFence) (hk : 1 ≤ k) :
    InstanceColoringGroup.StartRepaint currentFence lastRepaint = (false, currentFence)
    ∧ InstanceColoringGroup.StartRepaint currentFence currentFence = (true, currentFence)
    ∧ (startRepaintCalls currentFence lastRepaint k).1 =
        false :: List.replicate (k - 1) true
    ∧ (startRepaintCalls currentFence lastRepaint k).2 = currentFence
    ∧ (startRepaintCalls currentFence lastRepaint k).1.count false = 1 := by
  have hfirst : InstanceColoringGroup.StartRepaint currentFence lastRepaint =
      (false, currentFence) := by
    unfold InstanceColoringGroup.StartRepaint
    rw [if_neg hstale]
  obtain ⟨m, rfl⟩ : ∃ m, k = m + 1 := ⟨k - 1, by omega⟩
  have htrace : startRepaintCalls currentFence lastRepaint (m + 1) =
      (false :: List.replicate m true, currentFence) := by
    show (let r := InstanceColoringGroup.StartRepaint currentFence lastRepaint
      let rest := startRepaintCalls currentFence r.2 m
      (r.1 :: rest.1, rest.2)) = _
    rw [hfirst]
    show ((false, currentFence).1 :: (startRepaintCalls currentFence currentFence m).1,
      (startRepaintCalls currentFence currentFence m).2) = _
    rw [startRepaintCalls_current]
  refine ⟨hfirst, ?_, ?_, ?_, ?_⟩
  · unfold InstanceColoringGroup.StartRepaint
    rw [if_pos rfl]
  · rw [htrace]
    simp
  · rw [htrace]
  · rw [htrace]
    simp [List.count_replicate]

/-- C6 witness: a group with stamp 0 at fence 5, called three times, reports
[stale, current, current] and ends with stamp 5. -/
theorem startRepaint_stale_exactly_once_witness :
    (0 ≠ 5 ∧ 1 ≤ 3) ∧
    (InstanceColoringGroup.StartRepaint 5 0 = (false, 5)
    ∧ InstanceColoringGroup.StartRepaint 5 5 = (true, 5)
    ∧ (startRepaintCalls 5 0 3).1 = false :: List.replicate (3 - 1) true
    ∧ (startRepaintCalls 5 0 3).2 = 5
    ∧ (startRepaintCalls 5 0 3).1.count false = 1) :=
  ⟨by decide, startRepaint_stale_exactly_once 5 0 3 (by decide) (by decide)⟩

/-- C3: for every Count and Partitions ≥ 1, `Reset(Count, Partitions)` builds
at most Partitions lanes, each non-empty, which are contiguous,
non-overlapping and gap-free: concatenating their index ranges in lane order
gives exactly [0, Count).  Draining via `Advance` hands out each lane exactly
once, in order, and the call after the last lane returns false. -/
theorem sequenceGenerator_reset_lanes (count partitions : Nat) (hp : 1 ≤ partitions) :
    (SequenceGenerator.Reset count partitions).length ≤ partitions
    ∧ (SequenceGenerator.Reset count partitions).flatMap Slice.indices = List.range count
    ∧ (∀ sl ∈ SequenceGenerator.Reset count partitions, sl.start < sl.stopBefore)
    ∧ SequenceGenerator.drain ⟨SequenceGenerator.Reset count partitions, 0⟩ =
        (SequenceGenerator.Reset count partitions).map (fun sl => (sl.start, sl.stopBefore))
    ∧ (SequenceGenerator.Advance
        ⟨SequenceGenerator.Reset count partitions,
          (SequenceGenerator.Reset count partitions).length⟩).1 = false := by
  refine ⟨resetLoop_length_le count _ partitions 0, ?_,
    resetLoop_lanes_nonempty count _ partitions 0, ?_, ?_⟩
  · have h := resetLoop_flatten count ((count + partitions - 1) / partitions)
      partitions 0 (Nat.zero_le _)
      (by have := ceil_div_covers count partitions hp; omega)
    rw [List.range_eq_range']
    show (SequenceGenerator.resetLoop count ((count + partitions - 1) / partitions)
      0 partitions).flatMap Slice.indices = _
    rw [h, Nat.sub_zero]
  · have h := drain_eq (SequenceGenerator.Reset count partitions) 0
    simpa using h
  · rw [advance_neg _ (by simp)]

/-- C3 witness: `Reset(Count=100, Partitions=4)` yields at most 4 non-empty
lanes whose indices cover [0,100) exactly once, drained one lane per
`Advance` call until false. -/
theorem sequenceGenerator_reset_lanes_witness :
    1 ≤ 4 ∧
    ((SequenceGenerator.Reset 100 4).length ≤ 4
    ∧ (SequenceGenerator.Reset 100 4).flatMap Slice.indices = List.range 100
    ∧ (∀ sl ∈ SequenceGenerator.Reset 100 4, sl.start < sl.stopBefore)
    ∧ SequenceGenerator.drain ⟨SequenceGenerator.Reset 100 4, 0⟩ =
        (SequenceGenerator.Reset 100 4).map (fun sl => (sl.start, sl.stopBefore))
    ∧ (SequenceGenerator.Advance
        ⟨SequenceGenerator.Reset 100 4, (SequenceGenerator.Reset 100 4).length⟩).1 = false) :=
  ⟨by decide, sequenceGenerator_reset_lanes 100 4 (by decide)⟩

/-- C1: while a Drawable for an identity is live, a second construction with
the same identity binds to the same Drawable and changes nothing (in
particular it starts no second build); a construction that finds no live
Drawable for the identity starts exactly one build; a construction that finds
one reuses it with the cache untouched; and the invariant "at most one live
Drawable per identity" is preserved. -/
theorem drawable_cache_dedup (s : CacheState) (key : Nat) (hwf : s.WF) :
    (SDFModel.construct (SDFModel.construct s key).2 key).1 = (SDFModel.construct s key).1
    ∧ (SDFModel.construct (SDFModel.construct s key).2 key).2 = (SDFModel.construct s key).2
    ∧ (cacheLookup key s.live s.entries = none →
        (SDFModel.construct s key).2.populateCount = s.populateCount + 1)
    ∧ (∀ p, cacheLookup key s.live s.entries = some p →
        (SDFModel.construct s key).2 = s ∧ (SDFModel.construct s key).1 = p)
    ∧ (SDFModel.construct s key).2.WF := by
  have hsecond : cacheLookup key (SDFModel.construct s key).2.live
      (SDFModel.construct s key).2.entries = some (SDFModel.construct s key).1 := by
    match h : cacheLookup key s.live s.entries with
    | some p =>
      rw [construct_reuse s key p h]
      exact h
    | none =>
      rw [construct_build s key h]
      exact cacheLookup_append_fresh key s.live s.nextId s.entries
        ((cacheLookup_none key s.live s.entries).mp h)
        (fun e he => Nat.ne_of_lt (hwf.1.1 e he))
  have hrepeat := construct_reuse (SDFModel.construct s key).2 key
    (SDFModel.construct s key).1 hsecond
  refine ⟨by rw [hrepeat], by rw [hrepeat], ?_, ?_, construct_WF s key hwf⟩
  · intro h
    rw [construct_build s key h]
  · intro p h
    rw [construct_reuse s key p h]
    exact ⟨rfl, rfl⟩

/-- C1 witness: from the empty cache, two constructions against identity 42
bind to the same Drawable, the second changes nothing, the first started the
only build, and the invariant holds afterwards. -/
theorem drawable_cache_dedup_witness :
    (⟨[], [], 0, 0⟩ : CacheState).WF ∧
    ((SDFModel.construct (SDFModel.construct ⟨[], [], 0, 0⟩ 42).2 42).1 =
        (SDFModel.construct ⟨[], [], 0, 0⟩ 42).1
    ∧ (SDFModel.construct (SDFModel.construct ⟨[], [], 0, 0⟩ 42).2 42).2 =
        (SDFModel.construct ⟨[], [], 0, 0⟩ 42).2
    ∧ (cacheLookup 42 (⟨[], [], 0, 0⟩ : CacheState).live
          (⟨[], [], 0, 0⟩ : CacheState).entries = none →
        (SDFModel.construct ⟨[], [], 0, 0⟩ 42).2.populateCount =
          (⟨[], [], 0, 0⟩ : CacheState).populateCount + 1)
    ∧ (∀ p, cacheLookup 42 (⟨[], [], 0, 0⟩ : CacheState).live
          (⟨[], [], 0, 0⟩ : CacheState).entries = some p →
        (SDFModel.construct ⟨[], [], 0, 0⟩ 42).2 = ⟨[], [], 0, 0⟩
          ∧ (SDFModel.construct ⟨[], [], 0, 0⟩ 42).1 = p)
    ∧ (SDFModel.construct ⟨[], [], 0, 0⟩ 42).2.WF) :=
  have hwf : (⟨[], [], 0, 0⟩ : CacheState).WF :=
    ⟨⟨by simp, by simp⟩, List.Pairwise.nil⟩
  ⟨hwf, drawable_cache_dedup ⟨[], [], 0, 0⟩ 42 hwf⟩

/-- C9: when every cache entry for an identity is expired (the Drawable's
last strong reference is gone), a new construction skips the expired entries:
it binds to a brand-new Drawable distinct from every cached id, schedules
exactly one new build, and keeps the new Drawable live via the instance's
strong reference. -/
theorem expired_entry_not_reused (s : CacheState) (key : Nat) (hwf : s.WF)
    (hdead : ∀ e ∈ s.entries, e.1 = key → e.2 ∉ s.live) :
    (SDFModel.construct s key).1 = s.nextId
    ∧ (SDFModel.construct s key).2.populateCount = s.populateCount + 1
    ∧ (∀ e ∈ s.entries, (SDFModel.construct s key).1 ≠ e.2)
    ∧ (SDFModel.construct s key).2.live = s.live ++ [(SDFModel.construct s key).1] := by
  have hnone : cacheLookup key s.live s.entries = none :=
    (cacheLookup_none key s.live s.entries).mpr hdead
  rw [construct_build s key hnone]
  refine ⟨rfl, rfl, ?_, rfl⟩
  intro e he
  exact (Nat.ne_of_lt (hwf.1.1 e he)).symm

/-- C9 witness: a cache holding one expired entry for identity 7 (Drawable 0,
no longer live): the next construction with identity 7 binds to fresh
Drawable 1, not to the expired entry, and starts a build. -/
theorem expired_entry_not_reused_witness :
    ((⟨[(7, 0)], [], 1, 1⟩ : CacheState).WF
      ∧ (∀ e ∈ (⟨[(7, 0)], [], 1, 1⟩ : CacheState).entries, e.1 = 7 →
          e.2 ∉ (⟨[(7, 0)], [], 1, 1⟩ : CacheState).live)) ∧
    ((SDFModel.construct ⟨[(7, 0)], [], 1, 1⟩ 7).1 =
        (⟨[(7, 0)], [], 1, 1⟩ : CacheState).nextId
    ∧ (SDFModel.construct ⟨[(7, 0)], [], 1, 1⟩ 7).2.populateCount =
        (⟨[(7, 0)], [], 1, 1⟩ : CacheState).populateCount + 1
    ∧ (∀ e ∈ (⟨[(7, 0)], [], 1, 1⟩ : CacheState).entries,
        (SDFModel.construct ⟨[(7, 0)], [], 1, 1⟩ 7).1 ≠ e.2)
    ∧ (SDFModel.construct ⟨[(7, 0)], [], 1, 1⟩ 7).2.live =
        (⟨[(7, 0)], [], 1, 1⟩ : CacheState).live ++
          [(SDFModel.construct ⟨[(7, 0)], [], 1, 1⟩ 7).1]) :=
  have hwf : (⟨[(7, 0)], [], 1, 1⟩ : CacheState).WF :=
    ⟨⟨by simp, by simp⟩, List.pairwise_singleton _ _⟩
  have hdead : ∀ e ∈ (⟨[(7, 0)], [], 1, 1⟩ : CacheState).entries, e.1 = 7 →
      e.2 ∉ (⟨[(7, 0)], [], 1, 1⟩ : CacheState).live := by simp
  ⟨⟨hwf, hdead⟩, expired_entry_not_reused ⟨[(7, 0)], [], 1, 1⟩ 7 hwf hdead⟩

/-- C2: over a domain of size K (any K, including 0 and 1), the sequential
claim protocol of a `ParallelDomainTaskChain` stage calls `Loop` exactly K
times, once per domain element in claim order, so the claims are distinct and
cover the whole domain; the random-access loop passes the distinct indices
0..K-1, while the forward-iterator and octree-leaf loops pass index -1. -/
theorem parallel_domain_loop_calls (α : Type) (domain leaves : List α) :
    (runInnerRandomAccess domain).length = domain.length
    ∧ (runInnerRandomAccess domain).map Prod.fst = domain
    ∧ (runInnerRandomAccess domain).map Prod.snd =
        (List.range domain.length).map Int.ofNat
    ∧ runInnerForwardIterator domain = domain.map (fun e => (e, (-1 : Int)))
    ∧ runInnerOctreeLeaves leaves = leaves.map (fun l => (l, (-1 : Int))) := by
  refine ⟨?_, ?_, ?_, runInnerForwardIterator_eq domain, runInnerOctreeLeaves_eq leaves⟩
  · have h := runInnerRandomAccessFrom_map_fst domain 0
    have hlen := congrArg List.length h
    simpa using hlen
  · simpa using runInnerRandomAccessFrom_map_fst domain 0
  · have h := runInnerRandomAccessFrom_map_snd domain 0
    rw [List.range_eq_range']
    simpa using h

/-- C4: evaluation of `ParallelAccumulator::Advance` at a two-lane
accumulator.  Each call claims one whole lane, but the caller's start
variable after the second call is still 0 even though the claimed lane's
absolute offset in Join order is 2 — `OutBatchStart` is passed by value, so
the computed offset never reaches the caller (and prior lanes are already
moved out when it is computed). -/
theorem accumulator_advance_start_not_delivered :
    (ParallelAccumulator.Advance (⟨[[10, 11], [20, 21, 22]], 0⟩ :
        ParallelAccumulatorState Nat) [] 0).1 = true
    ∧ (ParallelAccumulator.Advance (⟨[[10, 11], [20, 21, 22]], 0⟩ :
        ParallelAccumulatorState Nat) [] 0).2.1 = [10, 11]
    ∧ (ParallelAccumulator.Advance (ParallelAccumulator.Advance
        (⟨[[10, 11], [20, 21, 22]], 0⟩ : ParallelAccumulatorState Nat) [] 0).2.2.2
        [] 0).1 = true
    ∧ (ParallelAccumulator.Advance (ParallelAccumulator.Advance
        (⟨[[10, 11], [20, 21, 22]], 0⟩ : ParallelAccumulatorState Nat) [] 0).2.2.2
        [] 0).2.1 = [20, 21, 22]
    ∧ (ParallelAccumulator.Advance (ParallelAccumulator.Advance
        (⟨[[10, 11], [20, 21, 22]], 0⟩ : ParallelAccumulatorState Nat) [] 0).2.2.2
        [] 0).2.2.1 = 0
    ∧ originalPriorSizes [[10, 11], [20, 21, 22]] 1 = 2
    ∧ (ParallelAccumulator.Advance (ParallelAccumulator.Advance
        (⟨[[10, 11], [20, 21, 22]], 0⟩ : ParallelAccumulatorState Nat) [] 0).2.2.2
        [] 0).2.2.1 ≠ originalPriorSizes [[10, 11], [20, 21, 22]] 1 := by
  decide

/-- C7 counterexample: a freshly constructed chain node holds no payload and
has no successor (the member initializers of `ParallelTaskChain` and the
`ParallelDomainTaskChain` constructor without initial intermediary data leave
both null), so "exactly one of {this node holds the payload, its successor
holds the payload}" is false for it. -/
theorem chain_exactly_one_holder_fails :
    ChainNode.exactlyOneHolder (ChainNode.mk (I := Nat) none none) = false := rfl

/-- C7 (amended): `BatonPass()` with a successor swaps the payload slots
(never copying: the total payload count over the node and its successor is
preserved by every call) and clears the successor link, so a node that held
the payload while its empty successor existed afterwards holds nothing and no
longer owns the successor, which now holds the payload; without a successor
the call changes nothing. -/
theorem batonPass_swaps_payload_and_clears_link (I : Type) (d sd : Option I)
    (sn : Option (ChainNode I)) (n : ChainNode I) :
    ChainNode.BatonPass (ChainNode.mk d (some (ChainNode.mk sd sn))) =
      (ChainNode.mk sd none, some (ChainNode.mk d sn))
    ∧ ChainNode.BatonPass (ChainNode.mk d (none : Option (ChainNode I))) =
      (ChainNode.mk d none, none)
    ∧ ChainNode.postPayloadCount (ChainNode.BatonPass n) = n.pairPayloadCount := by
  refine ⟨rfl, rfl, ?_⟩
  match n with
  | .mk d' none => rfl
  | .mk d' (some (.mk sd' sn')) =>
    show (if sd'.isSome then 1 else 0) + (if (ChainNode.mk d' sn').holdsPayload then 1 else 0) =
      (if d'.isSome then 1 else 0) + (if (ChainNode.mk sd' sn').holdsPayload then 1 else 0)
    show (if sd'.isSome then 1 else 0) + (if d'.isSome then 1 else 0) =
      (if d'.isSome then 1 else 0) + (if sd'.isSome then 1 else 0)
    exact Nat.add_comm _ _

/-- C8: `UpdateColors` empties every coloring group's pending buffer; for
each group whose pending buffer was non-empty it writes pending color i into
the instance color array at the slot `Vertices[IndexStart + i]`, for every
i < IndexRange; every array entry not addressed by a group with a non-empty
pending buffer is unchanged, and the array keeps its length.  Hypotheses
delimit defined behaviour: the addressed slots are pairwise distinct and in
range, and each active group's pending buffer covers its chunk. -/
theorem updateColors_spec (C : Type) [Inhabited C] (colors : List C)
    (groups : List (ColoringGroup C))
    (hnodup : (activeAddresses groups).Nodup)
    (hbound : ∀ a ∈ activeAddresses groups, a < colors.length)
    (hrange : ∀ g ∈ groups, 0 < g.pendingColors.length →
      g.indexRange ≤ g.pendingColors.length) :
    (∀ g' ∈ (SDFModel.UpdateColors colors groups).2, g'.pendingColors = ([] : List C))
    ∧ (SDFModel.UpdateColors colors groups).1.length = colors.length
    ∧ (∀ g ∈ groups, 0 < g.pendingColors.length → ∀ i, i < g.indexRange →
        (SDFModel.UpdateColors colors groups).1.get?
            (g.vertices.getD (g.indexStart + i) 0) =
          some (g.pendingColors.getD i default))
    ∧ (∀ j, j ∉ activeAddresses groups →
        (SDFModel.UpdateColors colors groups).1.get? j = colors.get? j) := by
  induction groups generalizing colors with
  | nil =>
    refine ⟨?_, rfl, ?_, ?_⟩
    · intro g' hg'
      simp [SDFModel.UpdateColors] at hg'
    · intro g hg
      simp at hg
    · intro j _
      rfl
  | cons g rest ih =>
    rw [activeAddresses_cons] at hnodup hbound
    rw [updateColors_cons]
    by_cases hg : 0 < g.pendingColors.length
    · rw [if_pos hg] at hnodup hbound ⊢
      have hsplit := List.nodup_append.mp hnodup
      obtain ⟨hnodupG, hnodupRest, hdisj⟩ := hsplit
      have hlen := writeGroupColorsLoop_length C g.vertices g.indexStart g.pendingColors
        g.indexRange 0 colors
      have hboundRest : ∀ a ∈ activeAddresses rest,
          a < (writeGroupColorsLoop g.vertices g.indexStart g.pendingColors
            g.indexRange 0 colors).length := by
        intro a ha
        rw [hlen]
        exact hbound a (List.mem_append_right _ ha)
      have hrangeRest : ∀ g₂ ∈ rest, 0 < g₂.pendingColors.length →
          g₂.indexRange ≤ g₂.pendingColors.length :=
        fun g₂ h2 => hrange g₂ (List.mem_cons_of_mem _ h2)
      have ihr := ih _ hnodupRest hboundRest hrangeRest
      refine ⟨?_, ?_, ?_, ?_⟩
      · intro g' hg'
        rcases List.mem_cons.mp hg' with rfl | hmem
        · rfl
        · exact ihr.1 g' hmem
      · rw [ihr.2.1, hlen]
      · intro g₂ hg₂ hp i hi
        rcases List.mem_cons.mp hg₂ with rfl | hmem
        · have haddr : g₂.vertices.getD (g₂.indexStart + i) 0 ∈ groupAddresses g₂ :=
            mem_groupAddresses C g₂ i hi
          have hnotRest : g₂.vertices.getD (g₂.indexStart + i) 0 ∉ activeAddresses rest :=
            fun hmem2 => hdisj haddr hmem2
          rw [ihr.2.2.2 _ hnotRest]
          exact writeGroupColorsLoop_write C g₂.vertices g₂.indexStart g₂.pendingColors
            g₂.indexRange 0 colors i (Nat.zero_le _) hi
            (fun i' hii' hi' heq =>
              absurd (groupAddresses_inj C g₂ hnodupG i' i hi' hi heq) (Nat.ne_of_gt hii'))
            (hbound _ (List.mem_append_left _ haddr))
        · exact ihr.2.2.1 g₂ hmem hp i hi
      · intro j hj
        rw [activeAddresses_cons, if_pos hg] at hj
        have hjG : j ∉ groupAddresses g := fun hmem => hj (List.mem_append_left _ hmem)
        have hjR : j ∉ activeAddresses rest := fun hmem => hj (List.mem_append_right _ hmem)
        rw [ihr.2.2.2 j hjR]
        exact writeGroupColorsLoop_frame C g.vertices g.indexStart g.pendingColors
          g.indexRange j 0 colors
          (fun i _ hi heq => hjG (heq ▸ mem_groupAddresses C g i hi))
    · rw [if_neg hg] at hnodup hbound ⊢
      rw [List.nil_append] at hnodup hbound
      have hrangeRest : ∀ g₂ ∈ rest, 0 < g₂.pendingColors.length →
          g₂.indexRange ≤ g₂.pendingColors.length :=
        fun g₂ h2 => hrange g₂ (List.mem_cons_of_mem _ h2)
      have ihr := ih _ hnodup hbound hrangeRest
      refine ⟨?_, ihr.2.1, ?_, ?_⟩
      · intro g' hg'
        rcases List.mem_cons.mp hg' with rfl | hmem
        · rfl
        · exact ihr.1 g' hmem
      · intro g₂ hg₂ hp i hi
        rcases List.mem_cons.mp hg₂ with rfl | hmem
        · exact absurd hp hg
        · exact ihr.2.2.1 g₂ hmem hp i hi
      · intro j hj
        rw [activeAddresses_cons, if_neg hg, List.nil_append] at hj
        exact ihr.2.2.2 j hj

/-- C8 witness: a four-entry color array with one active group (chunk slots
2 and 0, pending colors 7 and 8) and one inactive group: the call empties
both pending buffers, writes 7 to slot 2 and 8 to slot 0, and leaves the
other entries unchanged. -/
theorem updateColors_spec_witness :
    ((activeAddresses
        [(⟨[2, 0, 3], 0, 2, [7, 8]⟩ : ColoringGroup Nat), ⟨[1, 3], 1, 1, []⟩]).Nodup
      ∧ (∀ a ∈ activeAddresses
            [(⟨[2, 0, 3], 0, 2, [7, 8]⟩ : ColoringGroup Nat), ⟨[1, 3], 1, 1, []⟩],
          a < ([100, 101, 102, 103] : List Nat).length)
      ∧ (∀ g ∈ [(⟨[2, 0, 3], 0, 2, [7, 8]⟩ : ColoringGroup Nat), ⟨[1, 3], 1, 1, []⟩],
          0 < g.pendingColors.length → g.indexRange ≤ g.pendingColors.length)) ∧
    ((∀ g' ∈ (SDFModel.UpdateColors ([100, 101, 102, 103] : List Nat)
          [⟨[2, 0, 3], 0, 2, [7, 8]⟩, ⟨[1, 3], 1, 1, []⟩]).2,
        g'.pendingColors = ([] : List Nat))
    ∧ (SDFModel.UpdateColors ([100, 101, 102, 103] : List Nat)
          [⟨[2, 0, 3], 0, 2, [7, 8]⟩, ⟨[1, 3], 1, 1, []⟩]).1.length =
        ([100, 101, 102, 103] : List Nat).length
    ∧ (∀ g ∈ [(⟨[2, 0, 3], 0, 2, [7, 8]⟩ : ColoringGroup Nat), ⟨[1, 3], 1, 1, []⟩],
        0 < g.pendingColors.length → ∀ i, i < g.indexRange →
          (SDFModel.UpdateColors ([100, 101, 102, 103] : List Nat)
              [⟨[2, 0, 3], 0, 2, [7, 8]⟩, ⟨[1, 3], 1, 1, []⟩]).1.get?
              (g.vertices.getD (g.indexStart + i) 0) =
            some (g.pendingColors.getD i default))
    ∧ (∀ j, j ∉ activeAddresses
          [(⟨[2, 0, 3], 0, 2, [7, 8]⟩ : ColoringGroup Nat), ⟨[1, 3], 1, 1, []⟩] →
        (SDFModel.UpdateColors ([100, 101, 102, 103] : List Nat)
            [⟨[2, 0, 3], 0, 2, [7, 8]⟩, ⟨[1, 3], 1, 1, []⟩]).1.get? j =
          ([100, 101, 102, 103] : List Nat).get? j)) :=
  ⟨⟨by decide, by decide, by decide⟩,
    updateColors_spec Nat [100, 101, 102, 103]
      [⟨[2, 0, 3], 0, 2, [7, 8]⟩, ⟨[1, 3], 1, 1, []⟩]
      (by decide) (by decide) (by decide)⟩

/-- C10: `SDFModel::RayMarch` delegates to the evaluator's ray march on the
locally transformed ray with the hardcoded step limit 1000, so its result
does not depend on the `MaxIterations` or `Epsilon` arguments. -/
theorem rayMarch_ignores_maxIterations_epsilon (V H : Type) (m : SDFModelRM V H)
    (rayStart rayDir : V) (mi1 mi2 : Int) (e1 e2 : ℚ) :
    m.RayMarch rayStart rayDir mi1 e1 =
      m.evaluator.RayMarchEval (m.applyInvLocalToWorld rayStart)
        (m.rotateByInverseRotation rayDir) 1000
    ∧ m.RayMarch rayStart rayDir mi1 e1 = m.RayMarch rayStart rayDir mi2 e2 :=
  ⟨rfl, rfl⟩

end Tangerine
